import Mathlib

/-!
Verification of the cygnus document-indexing pipeline
(src/cygnus/indexer.py, src/cygnus/config.py, src/cygnus/models.py).

The definitions below are a shallow embedding of the Python source:
text is a list of characters, the per-document ledger record is an
explicit record, worker interleavings are explicit event lists, and
fallible code returns Except/Option values.
-/

set_option maxRecDepth 10000

namespace Cygnus

/-! ## Character and string helpers (Python str semantics) -/

/-- Whitespace characters as recognised by Python str.strip and the
regex class backslash-s on ASCII text. -/
def isWS (c : Char) : Bool :=
  c = ' ' || c = '\t' || c = '\n' || c = '\r' || c = '\x0b' || c = '\x0c'

/-- Sentence-ending punctuation of the regex in
DocumentIndexer._chunk_text line 433: the class [.!?]. -/
def isPunct (c : Char) : Bool := c = '.' || c = '!' || c = '?'

/-- Python s.strip() on a character list. -/
def pstrip (xs : List Char) : List Char :=
  ((xs.dropWhile isWS).reverse.dropWhile isWS).reverse

/-- Does the text contain a non-whitespace character?  Python
bool(s.strip()) for non-empty s. -/
def hasNonWS (xs : List Char) : Bool := xs.any (fun c => !isWS c)

/-- The text is non-empty and its last character is not whitespace. -/
def endsNonWS (xs : List Char) : Bool := !isWS (xs.getLastD ' ')

/-- Python s[-n:] for n > 0: the trailing min(n, len) characters. -/
def takeLast (n : Nat) (xs : List Char) : List Char := xs.drop (xs.length - n)

/-! ### Helper lemmas about the string helpers -/

theorem dropWhile_isSuffix (p : Char → Bool) (xs : List Char) :
    ∃ t, xs = t ++ xs.dropWhile p := by
  induction xs with
  | nil => exact ⟨[], rfl⟩
  | cons c rest ih =>
    by_cases h : p c
    · obtain ⟨t, ht⟩ := ih
      exact ⟨c :: t, by simp [List.dropWhile_cons, h, ← ht]⟩
    · exact ⟨[], by simp [List.dropWhile_cons, h]⟩

theorem length_dropWhile_le (p : Char → Bool) (xs : List Char) :
    (xs.dropWhile p).length ≤ xs.length := by
  induction xs with
  | nil => exact Nat.le_refl _
  | cons c rest ih =>
    rw [List.dropWhile_cons]
    by_cases h : p c
    · rw [if_pos h]
      exact Nat.le_trans ih (by simp)
    · rw [if_neg h]

theorem getLastD_append_right (xs ys : List Char) (d : Char) (h : ys ≠ []) :
    (xs ++ ys).getLastD d = ys.getLastD d := by
  rw [List.getLastD_eq_getLast?, List.getLastD_eq_getLast?,
    List.getLast?_append_of_ne_nil _ h]

theorem getLastD_irrel (xs : List Char) (a b : Char) (h : xs ≠ []) :
    xs.getLastD a = xs.getLastD b := by
  obtain ⟨x, hx⟩ := Option.isSome_iff_exists.mp (List.getLast?_isSome.mpr h)
  rw [List.getLastD_eq_getLast?, List.getLastD_eq_getLast?, hx]
  rfl

theorem hasNonWS_append (xs ys : List Char) :
    hasNonWS (xs ++ ys) = (hasNonWS xs || hasNonWS ys) := by
  simp [hasNonWS, List.any_append]

theorem hasNonWS_reverse (xs : List Char) :
    hasNonWS xs.reverse = hasNonWS xs := by
  simp [hasNonWS]

theorem hasNonWS_dropWhile_isWS (xs : List Char) :
    hasNonWS (xs.dropWhile isWS) = hasNonWS xs := by
  induction xs with
  | nil => rfl
  | cons c rest ih =>
    rw [List.dropWhile_cons]
    by_cases h : isWS c
    · rw [if_pos h, ih]
      simp [hasNonWS, h]
    · rw [if_neg h]

theorem hasNonWS_pstrip (xs : List Char) :
    hasNonWS (pstrip xs) = hasNonWS xs := by
  rw [pstrip, hasNonWS_reverse, hasNonWS_dropWhile_isWS, hasNonWS_reverse,
    hasNonWS_dropWhile_isWS]

theorem pstrip_eq_nil_iff (xs : List Char) :
    pstrip xs = [] ↔ hasNonWS xs = false := by
  constructor
  · intro h
    have := hasNonWS_pstrip xs
    rw [h] at this
    simpa [hasNonWS] using this.symm
  · intro h
    have hall : ∀ c ∈ xs, isWS c := by
      intro c hc
      by_contra hcw
      have : hasNonWS xs = true := by
        simp [hasNonWS, List.any_eq_true]
        exact ⟨c, hc, by simpa using hcw⟩
      rw [h] at this; cases this
    have h1 : xs.dropWhile isWS = [] := List.dropWhile_eq_nil_iff.mpr hall
    simp [pstrip, h1]

theorem endsNonWS_nonempty {xs : List Char} (h : endsNonWS xs = true) : xs ≠ [] := by
  intro hnil
  rw [hnil] at h
  simp [endsNonWS, isWS] at h

theorem endsNonWS_append (xs ys : List Char) (h : endsNonWS ys = true) :
    endsNonWS (xs ++ ys) = true := by
  have hy : ys ≠ [] := endsNonWS_nonempty h
  rw [endsNonWS, getLastD_append_right _ _ _ hy]
  exact h

theorem endsNonWS_cons (c : Char) (s : List Char) (h : endsNonWS s = true) :
    endsNonWS (c :: s) = true := by
  have hs : s ≠ [] := endsNonWS_nonempty h
  rw [endsNonWS, List.getLastD_cons, getLastD_irrel s c ' ' hs]
  exact h

theorem endsNonWS_concat (xs : List Char) (c : Char) (h : isWS c = false) :
    endsNonWS (xs ++ [c]) = true := by
  rw [endsNonWS, List.getLastD_eq_getLast?, List.getLast?_concat]
  simp [h]

theorem endsNonWS_hasNonWS {xs : List Char} (h : endsNonWS xs = true) :
    hasNonWS xs = true := by
  have hx : xs ≠ [] := endsNonWS_nonempty h
  obtain ⟨t, c, rfl⟩ : ∃ t c, xs = t ++ [c] := by
    rcases List.eq_nil_or_concat xs with h1 | ⟨t, c, hc⟩
    · exact absurd h1 hx
    · exact ⟨t, c, by rw [hc, List.concat_eq_append]⟩
  rw [endsNonWS, List.getLastD_eq_getLast?, List.getLast?_concat] at h
  simp only [Option.getD_some] at h
  rw [hasNonWS_append]
  simp [hasNonWS, h]

theorem endsNonWS_pstrip_nonempty {xs : List Char} (h : pstrip xs ≠ []) :
    endsNonWS (pstrip xs) = true := by
  have hy : pstrip xs = ((xs.dropWhile isWS).reverse.dropWhile isWS).reverse := rfl
  cases hcy : (xs.dropWhile isWS).reverse.dropWhile isWS with
  | nil => rw [hy, hcy] at h; exact absurd rfl h
  | cons c t =>
    have hc : isWS c = false := by
      have hh := List.head?_dropWhile_not isWS (xs.dropWhile isWS).reverse
      rw [hcy] at hh
      simpa using hh
    rw [hy, hcy, List.reverse_cons]
    exact endsNonWS_concat _ _ hc

theorem pstrip_length_le (xs : List Char) : (pstrip xs).length ≤ xs.length := by
  rw [pstrip]
  calc ((xs.dropWhile isWS).reverse.dropWhile isWS).reverse.length
      = ((xs.dropWhile isWS).reverse.dropWhile isWS).length := by
        rw [List.length_reverse]
    _ ≤ (xs.dropWhile isWS).reverse.length := length_dropWhile_le _ _
    _ = (xs.dropWhile isWS).length := by rw [List.length_reverse]
    _ ≤ xs.length := length_dropWhile_le _ _

theorem pstrip_of_noWS {xs : List Char} (h : hasNonWS xs = true)
    (hall : ∀ c ∈ xs, isWS c = false) : pstrip xs = xs := by
  have h1 : xs.dropWhile isWS = xs := by
    cases xs with
    | nil => rfl
    | cons c t => rw [List.dropWhile_cons_of_neg (by simp [hall c (by simp)])]
  rw [pstrip, h1]
  have h2 : xs.reverse.dropWhile isWS = xs.reverse := by
    cases hr : xs.reverse with
    | nil => rfl
    | cons c t =>
      rw [List.dropWhile_cons_of_neg]
      have : c ∈ xs := by
        have : c ∈ xs.reverse := by rw [hr]; simp
        simpa using this
      simp [hall c this]
  rw [h2, List.reverse_reverse]

theorem takeLast_length_le (n : Nat) (xs : List Char) :
    (takeLast n xs).length ≤ n := by
  rw [takeLast, List.length_drop]
  omega

theorem endsNonWS_takeLast {xs : List Char} {n : Nat} (h : endsNonWS xs = true)
    (hn : 0 < n) : endsNonWS (takeLast n xs) = true := by
  have hx : xs ≠ [] := endsNonWS_nonempty h
  rw [takeLast]
  have hlen : 0 < xs.length := List.length_pos.mpr hx
  have hk : xs.length - n < xs.length := by omega
  have hsplit : xs.take (xs.length - n) ++ xs.drop (xs.length - n) = xs :=
    List.take_append_drop _ _
  have hne : xs.drop (xs.length - n) ≠ [] := by
    intro h0
    have : xs.length - (xs.length - n) = 0 := by
      have := List.length_drop (xs.length - n) xs
      rw [h0] at this
      simpa using this.symm
    omega
  rw [endsNonWS, ← getLastD_append_right (xs.take (xs.length - n)) _ ' ' hne,
    hsplit]
  exact h

/-! ## The chunker (DocumentIndexer._chunk_text, indexer.py lines 379-461) -/

/-- Python text.split for the two-character separator of
indexer.py line 413, text.split of the string newline-newline:
leftmost, non-overlapping matches. -/
def splitNNAux (acc : List Char) : List Char → List (List Char)
  | [] => [acc.reverse]
  | [c] => [(c :: acc).reverse]
  | c1 :: c2 :: rest =>
    if c1 = '\n' ∧ c2 = '\n' then acc.reverse :: splitNNAux [] rest
    else splitNNAux (c1 :: acc) (c2 :: rest)

/-- indexer.py line 413: paragraphs = text.split of newline-newline. -/
def splitNN (text : List Char) : List (List Char) := splitNNAux [] text

/-- indexer.py line 433: re.split of the pattern
lookbehind-[.!?] whitespace-plus over a paragraph.  The scan keeps the
flag of whether the previously consumed character is sentence
punctuation; on punctuation followed by whitespace the accumulated
piece is emitted and the whole greedy whitespace run is consumed. -/
def sentAux : Nat → List Char → List Char → Bool → List (List Char)
  | _, [], acc, _ => [acc.reverse]
  | 0, _ :: _, acc, _ => [acc.reverse]
  | fuel + 1, c :: rest, acc, p =>
    if p && isWS c then acc.reverse :: sentAux fuel (rest.dropWhile isWS) [] false
    else sentAux fuel rest (c :: acc) (isPunct c)

def sentSplit (l : List Char) : List (List Char) := sentAux l.length l [] false

/-- The state of the semantic accumulation loop: the chunks flushed so
far and the running buffer current_chunk. -/
abbrev ChunkState := List (List Char) × List Char

/-- The flush step shared by both loops of the semantic strategy
(indexer.py lines 423-429 and 436-441): if current_chunk is non-empty,
append its stripped form to chunks and seed the new buffer with the
trailing overlap characters (empty when overlap = 0). -/
def flushSt (ov : Nat) (st : ChunkState) : ChunkState :=
  if st.2 ≠ [] then
    (st.1 ++ [pstrip st.2], if 0 < ov then takeLast ov st.2 else [])
  else st

/-- The body of the sentence loop, indexer.py lines 434-442. -/
def procSentence (cs ov : Nat) (st : ChunkState) (s : List Char) : ChunkState :=
  let st1 := if cs < st.2.length + s.length then flushSt ov st else st
  (st1.1, st1.2 ++ ' ' :: s)

/-- The body of the paragraph loop, indexer.py lines 416-449. -/
def procPara (cs ov : Nat) (st : ChunkState) (para0 : List Char) : ChunkState :=
  let para := pstrip para0
  if para = [] then st
  else if cs < st.2.length + para.length then
    let st1 := flushSt ov st
    if cs < para.length then (sentSplit para).foldl (procSentence cs ov) st1
    else (st1.1, st1.2 ++ ' ' :: para)
  else if st.2 ≠ [] then (st.1, st.2 ++ '\n' :: '\n' :: para)
  else (st.1, para)

/-- The semantic strategy, indexer.py lines 411-453, including the
final flush of the remaining buffer (lines 452-453). -/
def semanticChunks (cs ov : Nat) (text : List Char) : List (List Char) :=
  let st := (splitNN text).foldl (procPara cs ov) ([], [])
  if pstrip st.2 ≠ [] then st.1 ++ [pstrip st.2] else st.1

/-- The start offsets of Python range(0, n, step) for step > 0:
start, start + step, ... while < n.  Fuel-based so that the kernel can
evaluate it; n - start is always enough fuel. -/
def posRangeAux (n step : Nat) : Nat → Nat → List Nat
  | 0, _ => []
  | fuel + 1, start =>
    if start < n ∧ 0 < step then start :: posRangeAux n step fuel (start + step)
    else []

def posRange (n step start : Nat) : List Nat :=
  posRangeAux n step (n - start) start

/-- The exception range(0, n, 0) raises in Python: the fixed strategy
hits it when chunk_size = chunk_overlap (indexer.py line 456). -/
inductive PyErr where
  | rangeStepZero : PyErr
deriving DecidableEq

/-- The fixed strategy, indexer.py lines 455-459: windows of
chunk_size characters taken every chunk_size - overlap characters;
each window is stripped and kept when non-blank.  The Python range
step is the possibly negative int chunk_size - overlap: step 0 raises
ValueError, a negative step yields no windows. -/
def fixedChunks (cs ov : Nat) (text : List Char) : Except PyErr (List (List Char)) :=
  let step : Int := (cs : Int) - (ov : Int)
  if step = 0 then .error .rangeStepZero
  else
    let idxs : List Nat := if step < 0 then [] else posRange text.length step.toNat 0
    .ok (idxs.foldl (fun chunks i =>
      let ch := pstrip ((text.drop i).take cs)
      if ch = [] then chunks else chunks ++ [ch]) [])

/-- DocumentIndexer._chunk_text, indexer.py lines 406-461: dispatch on
the configured strategy string; any strategy other than "semantic"
takes the fixed branch (line 455). -/
def chunkText (cs ov : Nat) (strategy : String) (text : List Char) :
    Except PyErr (List (List Char)) :=
  if strategy = "semantic" then .ok (semanticChunks cs ov text)
  else fixedChunks cs ov text

/-- The failures the extraction-to-chunking stage of
DocumentIndexer._index_document can raise. -/
inductive ChunkFailure where
  | noTextExtracted : ChunkFailure
  | noChunksCreated : ChunkFailure
  | pyErr : PyErr → ChunkFailure
deriving DecidableEq

/-- The chunking stage of DocumentIndexer._index_document, indexer.py
lines 291-298: raise when the extracted text is blank, chunk it, raise
when no chunks were produced. -/
def indexChunkStage (cs ov : Nat) (strategy : String) (text : List Char) :
    Except ChunkFailure (List (List Char)) :=
  if text = [] ∨ pstrip text = [] then .error .noTextExtracted
  else
    match chunkText cs ov strategy text with
    | .error e => .error (.pyErr e)
    | .ok chunks => if chunks = [] then .error .noChunksCreated else .ok chunks

/-! ## The per-document ledger state machine
(models.py Document, indexer.py lines 204-247, 249-340, 463-500) -/

/-- models.py IndexingStatus. -/
inductive IndexingStatus where
  | pending : IndexingStatus
  | processing : IndexingStatus
  | completed : IndexingStatus
  | failed : IndexingStatus
deriving DecidableEq

/-- The ledger record of one document (models.py Document, lines
316-325), restricted to the fields the state machine reads or writes.
Timestamps are abstract naturals. -/
structure DocRec where
  status : IndexingStatus
  retry_count : Nat
  error_message : Option (List Char)
  chunk_count : Nat
  indexed_date : Option Nat
deriving DecidableEq

/-- The column defaults of models.py lines 320-324: status PENDING,
retry_count 0, error_message null, chunk_count 0, indexed_date null. -/
def initDoc : DocRec :=
  { status := .pending, retry_count := 0, error_message := none,
    chunk_count := 0, indexed_date := none }

/-- The ledger events a worker performs on one document.  claim is the
commit at indexer.py lines 231-233; complete is the successful update
at lines 327-332 carrying the chunk count and the completion
timestamp; failAttempt is _handle_indexing_error, lines 483-495,
carrying the error message. -/
inductive Ev where
  | claim : Ev
  | complete : Nat → Nat → Ev
  | failAttempt : List Char → Ev
deriving DecidableEq

/-- One ledger update.  claim applies only to a PENDING document (the
query filter at indexer.py lines 220-222); complete and failAttempt
run on a document the worker has just claimed, hence PROCESSING.
failAttempt mirrors lines 485-493: increment retry_count, truncate the
message to 1000 characters, and set the status to PENDING when the new
count is below max_retries and to FAILED otherwise. -/
def applyEv (maxRetries : Nat) (d : DocRec) : Ev → Option DocRec
  | .claim =>
    if d.status = .pending then some { d with status := .processing } else none
  | .complete n t =>
    if d.status = .processing then
      some { d with status := .completed, indexed_date := some t,
                    chunk_count := n, error_message := none }
    else none
  | .failAttempt m =>
    if d.status = .processing then
      some { d with retry_count := d.retry_count + 1,
                    error_message := some (m.take 1000),
                    status := if d.retry_count + 1 < maxRetries then
                      .pending else .failed }
    else none

/-- Run a sequence of ledger events from the initial record; none when
some event's precondition fails. -/
def runEvs (maxRetries : Nat) (evs : List Ev) : Option DocRec :=
  evs.foldlM (applyEv maxRetries) initDoc

/-- The number of failing attempts in an event sequence. -/
def countFails (evs : List Ev) : Nat :=
  evs.countP (fun e => match e with | .failAttempt _ => true | _ => false)

/-! ## The worker pool claim race
(DocumentIndexer.process_pending_documents, indexer.py lines 204-247) -/

/-- ids of the PENDING documents, as returned by the scan query of
indexer.py lines 220-222 (.filter(status == PENDING).limit(10)). -/
def pendingIds (ledger : List IndexingStatus) : List Nat :=
  ((List.range ledger.length).filter
    (fun i => decide (ledger.getD i .failed = .pending))).take 10

/-- Shared state of a two-worker run: the ledger, each worker's
scanned batch pending_docs, and the documents each worker has handed
to _index_document. -/
structure PoolState where
  ledger : List IndexingStatus
  selA : List Nat
  selB : List Nat
  procA : List Nat
  procB : List Nat
deriving DecidableEq

/-- The interleavable atomic actions of the two workers.  scan is the
SELECT of indexer.py lines 220-222; step is one iteration of the loop
at lines 229-236: take the next previously scanned document, set its
status to PROCESSING, commit, and run _index_document on it.  The
source performs the scan and the per-document write as two separate
database operations with no conditional update, so another worker may
scan between them. -/
inductive PoolAct where
  | scanA : PoolAct
  | scanB : PoolAct
  | stepA : PoolAct
  | stepB : PoolAct
deriving DecidableEq

def poolStep (s : PoolState) : PoolAct → PoolState
  | .scanA => { s with selA := pendingIds s.ledger }
  | .scanB => { s with selB := pendingIds s.ledger }
  | .stepA =>
    match s.selA with
    | [] => s
    | i :: rest =>
      { s with ledger := s.ledger.set i .processing, selA := rest,
               procA := s.procA ++ [i] }
  | .stepB =>
    match s.selB with
    | [] => s
    | i :: rest =>
      { s with ledger := s.ledger.set i .processing, selB := rest,
               procB := s.procB ++ [i] }

/-- Run an interleaving of the two workers over a ledger of M
documents, all PENDING. -/
def runPool (m : Nat) (sched : List PoolAct) : PoolState :=
  sched.foldl poolStep
    { ledger := List.replicate m .pending, selA := [], selB := [],
      procA := [], procB := [] }

/-! ## The vector store (indexer.py lines 305-325) -/

/-- A ChromaDB entry keyed by the id string
documentId_chunk_chunkIndex (indexer.py line 306). -/
structure VSEntry where
  docId : Nat
  chunkIndex : Nat
  text : List Char
deriving DecidableEq

/-- collection.add of the new chunk entries (indexer.py lines
320-325), modelled as id-keyed upsert: entries whose id collides with
a new id are replaced, all other existing entries are left in place.
The source performs no deletion of the document's prior entries before
this call. -/
def storeAdd (store : List VSEntry) (news : List VSEntry) : List VSEntry :=
  store.filter (fun e =>
    !(news.any (fun n => n.docId == e.docId && n.chunkIndex == e.chunkIndex)))
    ++ news

/-- The store mutation of one successful _index_document run: add one
entry per chunk, ids documentId_chunk_0 .. documentId_chunk_(k-1)
(indexer.py lines 305-325). -/
def indexStoreStep (store : List VSEntry) (docId : Nat)
    (chunks : List (List Char)) : List VSEntry :=
  storeAdd store (chunks.enum.map (fun p => ⟨docId, p.1, p.2⟩))

/-- Number of stored entries belonging to one document. -/
def docEntryCount (store : List VSEntry) (docId : Nat) : Nat :=
  store.countP (fun e => e.docId == docId)

/-! ## Search (DocumentIndexer.search, indexer.py lines 502-551) -/

/-- The errors the try block of search can raise; embedding the query
(line 528) is the failure the claim is about. -/
inductive SearchErr where
  | embeddingError : SearchErr
deriving DecidableEq

/-- An entry as seen by the query path: stored vector and text. -/
structure SEntry where
  vec : List Int
  text : List Char
deriving DecidableEq

/-- Squared euclidean distance stand-in for the store's metric. -/
def vdist (u v : List Int) : Int :=
  ((u.zip v).map (fun p => (p.1 - p.2) * (p.1 - p.2))).sum

def insertByDist (x : SEntry × Int) : List (SEntry × Int) → List (SEntry × Int)
  | [] => [x]
  | y :: ys => if x.2 ≤ y.2 then x :: y :: ys else y :: insertByDist x ys

def sortByDist : List (SEntry × Int) → List (SEntry × Int)
  | [] => []
  | x :: xs => insertByDist x (sortByDist xs)

/-- collection.query (indexer.py lines 531-535): the up to n_results
nearest stored entries by ascending distance. -/
def chromaQuery (store : List SEntry) (qv : List Int) (n : Nat) :
    List (SEntry × Int) :=
  (sortByDist (store.map (fun e => (e, vdist e.vec qv)))).take n

/-- DocumentIndexer.search, indexer.py lines 526-551.  The whole body
sits in a try block; the except clause at lines 549-551 catches every
exception and returns the empty list, so the caller always receives a
normal list and never a raised error.  The outcome of embedding the
query (line 528) is passed in as an Except value. -/
def searchRun (embedOutcome : Except SearchErr (List Int))
    (store : List SEntry) (n : Nat) : Except SearchErr (List (List Char × Int)) :=
  match (do
    let qv ← embedOutcome
    pure ((chromaQuery store qv n).map (fun p => (p.1.text, p.2))) :
      Except SearchErr (List (List Char × Int))) with
  | .ok r => .ok r
  | .error _ => .ok []

/-! ## Configuration loading (config.py load_config, lines 178-216) -/

/-- The indexing fields of config.py IndexingConfig (lines 140-146)
that the chunker reads. -/
structure ChunkCfg where
  chunk_size : Nat
  chunk_overlap : Nat
  chunking_strategy : String
deriving DecidableEq

/-- Value-level validation performed by load_config (config.py lines
178-216) on the indexing fields: the function checks only that the
file exists and that the YAML matches the dataclass field types via
OmegaConf; it imposes no constraint relating chunk_overlap to
chunk_size (nor any other value range), so every typed configuration
is accepted. -/
def loadConfigAccepts (_cfg : ChunkCfg) : Bool := true

/-! ## Ledger invariants -/

theorem runEvs_concat (max : Nat) (evs : List Ev) (e : Ev) :
    runEvs max (evs ++ [e]) = (runEvs max evs).bind (fun d => applyEv max d e) := by
  rw [runEvs, runEvs, List.foldlM_append]
  cases List.foldlM (applyEv max) initDoc evs with
  | none => rfl
  | some d =>
    show applyEv max d e >>= (fun b => List.foldlM (applyEv max) b []) = applyEv max d e
    cases applyEv max d e <;> rfl

theorem countFails_concat (evs : List Ev) (e : Ev) :
    countFails (evs ++ [e]) =
      countFails evs + (match e with | .failAttempt _ => 1 | _ => 0) := by
  rw [countFails, List.countP_append, countFails]
  cases e <;> rfl

/-- The inductive invariant of the per-document state machine, for
max_retries ≥ 1: the retry counter counts the failing attempts so far
and is bounded by max_retries, reaching it exactly in state FAILED;
chunk_count and indexed_date are untouched outside COMPLETED, where
error_message is null; a non-null error_message implies a past failure
and a non-COMPLETED status. -/
def InvD (max : Nat) (evs : List Ev) (d : DocRec) : Prop :=
  d.retry_count = countFails evs
  ∧ (d.status = .failed → d.retry_count = max)
  ∧ (d.status ≠ .failed → d.retry_count < max)
  ∧ ((d.chunk_count ≠ 0 ∨ d.indexed_date ≠ none) →
      (d.status = .completed ∧ d.error_message = none))
  ∧ (d.error_message ≠ none → 1 ≤ d.retry_count ∧ d.status ≠ .completed)

theorem runEvs_inv (max : Nat) (hmax : 1 ≤ max) (evs : List Ev) (d : DocRec)
    (h : runEvs max evs = some d) : InvD max evs d := by
  induction evs using List.reverseRecOn generalizing d with
  | nil =>
    have hd : initDoc = d := Option.some.inj h
    subst hd
    refine ⟨rfl, fun h1 => ?_, fun _ => ?_, fun h1 => ?_, fun h1 => ?_⟩
    · simp [initDoc] at h1
    · simpa [initDoc] using hmax
    · simp [initDoc] at h1
    · simp [initDoc] at h1
  | append_singleton evs e ih =>
    rw [runEvs_concat] at h
    cases hprev : runEvs max evs with
    | none => rw [hprev] at h; cases h
    | some d0 =>
      rw [hprev] at h
      have inv0 := ih d0 hprev
      obtain ⟨i1, i2, i3, i4, i5⟩ := inv0
      replace h : applyEv max d0 e = some d := h
      cases e with
      | claim =>
        rw [applyEv] at h
        by_cases hs : d0.status = .pending
        · rw [if_pos hs] at h
          have hd : d = { d0 with status := .processing } :=
            ((Option.some.injEq _ _).mp h).symm
          subst hd
          have hnf : d0.status ≠ .failed := by rw [hs]; intro hh; cases hh
          refine ⟨by simpa [countFails_concat] using i1, ?_, ?_, ?_, ?_⟩
          · intro hh; cases hh
          · intro _; exact i3 hnf
          · intro hh
            have := i4 hh
            rw [hs] at this
            cases this.1
          · intro hh
            refine ⟨(i5 hh).1, ?_⟩
            intro hc; cases hc
        · rw [if_neg hs] at h; cases h
      | complete n t =>
        rw [applyEv] at h
        by_cases hs : d0.status = .processing
        · rw [if_pos hs] at h
          have hd : d = { d0 with
              status := .completed
              indexed_date := some t
              chunk_count := n
              error_message := none } :=
            ((Option.some.injEq _ _).mp h).symm
          subst hd
          have hnf : d0.status ≠ .failed := by rw [hs]; intro hh; cases hh
          refine ⟨by simpa [countFails_concat] using i1, ?_, ?_, ?_, ?_⟩
          · intro hh; cases hh
          · intro _; exact i3 hnf
          · intro _; exact ⟨rfl, rfl⟩
          · intro hh; simp at hh
        · rw [if_neg hs] at h; cases h
      | failAttempt m =>
        rw [applyEv] at h
        by_cases hs : d0.status = .processing
        · rw [if_pos hs] at h
          have hd : d = { d0 with
              retry_count := d0.retry_count + 1
              error_message := some (m.take 1000)
              status := if d0.retry_count + 1 < max then .pending else .failed } :=
            ((Option.some.injEq _ _).mp h).symm
          subst hd
          have hnf : d0.status ≠ .failed := by rw [hs]; intro hh; cases hh
          have hlt : d0.retry_count < max := i3 hnf
          have hck : d0.chunk_count = 0 ∧ d0.indexed_date = none := by
            by_contra hcon
            rcases Decidable.em (d0.chunk_count = 0) with hc | hc
            · rcases Decidable.em (d0.indexed_date = none) with hi | hi
              · exact hcon ⟨hc, hi⟩
              · have := (i4 (Or.inr hi)).1; rw [hs] at this; cases this
            · have := (i4 (Or.inl hc)).1; rw [hs] at this; cases this
          refine ⟨?_, ?_, ?_, ?_, ?_⟩
          · simp [countFails_concat]; omega
          · intro hh
            simp only at hh
            by_cases hb : d0.retry_count + 1 < max
            · rw [if_pos hb] at hh; cases hh
            · simp; omega
          · intro hh
            simp only at hh
            by_cases hb : d0.retry_count + 1 < max
            · simpa using hb
            · rw [if_neg hb] at hh; exact absurd rfl hh
          · intro hh
            simp only at hh
            rcases hh with hc | hi
            · exact absurd hck.1 hc
            · exact absurd hck.2 hi
          · intro _
            refine ⟨by simp, ?_⟩
            simp only
            by_cases hb : d0.retry_count + 1 < max
            · rw [if_pos hb]; intro hc; cases hc
            · rw [if_neg hb]; intro hc; cases hc
        · rw [if_neg hs] at h; cases h

/-! ## Claim theorems: ledger state machine -/

/-- Claim C2: for every document and every sequence of indexing
attempts with maxRetries ≥ 1, retryCount never exceeds maxRetries; the
status is FAILED exactly when the document has failed maxRetries times
(failures are necessarily consecutive and without intervening success,
COMPLETED being terminal); and a failing attempt with
retryCount + 1 < maxRetries returns the document to PENDING with an
incremented retryCount (and the truncated error message). -/
theorem retry_bounded_and_failed_iff (max : Nat) (evs : List Ev) (d : DocRec)
    (m : List Char) (hmax : 1 ≤ max) (h : runEvs max evs = some d) :
    d.retry_count ≤ max
    ∧ (d.status = .failed ↔ countFails evs = max)
    ∧ (d.status = .processing → d.retry_count + 1 < max →
        applyEv max d (.failAttempt m) = some { d with
          retry_count := d.retry_count + 1
          error_message := some (m.take 1000)
          status := .pending }) := by
  obtain ⟨i1, i2, i3, _, _⟩ := runEvs_inv max hmax evs d h
  refine ⟨?_, ⟨?_, ?_⟩, ?_⟩
  · by_cases hf : d.status = .failed
    · exact Nat.le_of_eq (i2 hf)
    · exact Nat.le_of_lt (i3 hf)
  · intro hf
    rw [← i1]
    exact i2 hf
  · intro hc
    by_contra hf
    have := i3 hf
    omega
  · intro hs hlt
    simp [applyEv, hs, hlt]

/-- A concrete reachable ledger state: one failure then a re-claim. -/
def docProcR : DocRec :=
  { status := .processing, retry_count := 1, error_message := some ['e'],
    chunk_count := 0, indexed_date := none }

theorem retry_bounded_and_failed_iff_w :
    runEvs 3 [Ev.claim, Ev.failAttempt ['e'], Ev.claim] = some docProcR
    ∧ (docProcR.retry_count ≤ 3
      ∧ (docProcR.status = .failed ↔
          countFails [Ev.claim, Ev.failAttempt ['e'], Ev.claim] = 3)
      ∧ (docProcR.status = .processing → docProcR.retry_count + 1 < 3 →
          applyEv 3 docProcR (.failAttempt ['m']) = some { docProcR with
            retry_count := docProcR.retry_count + 1
            error_message := some (['m'].take 1000)
            status := .pending })) := by
  refine ⟨by decide, ?_⟩
  exact retry_bounded_and_failed_iff 3 [Ev.claim, Ev.failAttempt ['e'], Ev.claim]
    docProcR ['m'] (by omega) (by decide)

/-- Claim C9, amended: chunkCount and indexedAt are assigned only
together with the transition into COMPLETED, with errorMessage
simultaneously cleared to null; errorMessage is non-null only after a
previous failure (retryCount ≥ 1) and while the status is not
COMPLETED — which includes FAILED and PENDING-after-failure, but also
PROCESSING while a previously failed document is being retried. -/
theorem ledger_fields_invariant (max : Nat) (evs : List Ev) (d : DocRec)
    (hmax : 1 ≤ max) (h : runEvs max evs = some d) :
    ((d.chunk_count ≠ 0 ∨ d.indexed_date ≠ none) →
      d.status = .completed ∧ d.error_message = none)
    ∧ (d.error_message ≠ none → 1 ≤ d.retry_count ∧ d.status ≠ .completed) := by
  obtain ⟨_, _, _, i4, i5⟩ := runEvs_inv max hmax evs d h
  exact ⟨i4, i5⟩

/-- A concrete reachable ledger state: PENDING after one failure. -/
def docPendF : DocRec :=
  { status := .pending, retry_count := 1, error_message := some ['x'],
    chunk_count := 0, indexed_date := none }

theorem ledger_fields_invariant_w :
    runEvs 2 [Ev.claim, Ev.failAttempt ['x']] = some docPendF
    ∧ ((docPendF.chunk_count ≠ 0 ∨ docPendF.indexed_date ≠ none) →
        docPendF.status = .completed ∧ docPendF.error_message = none)
    ∧ (docPendF.error_message ≠ none →
        1 ≤ docPendF.retry_count ∧ docPendF.status ≠ .completed) := by
  refine ⟨by decide, ?_, ?_⟩
  · exact (ledger_fields_invariant 2 [Ev.claim, Ev.failAttempt ['x']]
      docPendF (by omega) (by decide)).1
  · exact (ledger_fields_invariant 2 [Ev.claim, Ev.failAttempt ['x']]
      docPendF (by omega) (by decide)).2

/-- Claim C9, counterexample to the claim as stated: the ledger state
after a failure and a re-claim is a reachable, committed state whose
status is PROCESSING (neither FAILED nor PENDING) while errorMessage
is still the non-null message of the previous failure — the claim
allows a non-null errorMessage only in FAILED or
PENDING-after-failure. -/
theorem processing_stale_error_counterexample :
    runEvs 2 [Ev.claim, Ev.failAttempt ['x'], Ev.claim] =
      some { status := .processing, retry_count := 1, error_message := some ['x'],
             chunk_count := 0, indexed_date := none }
    ∧ IndexingStatus.processing ≠ .failed
    ∧ IndexingStatus.processing ≠ .pending
    ∧ (some ['x'] : Option (List Char)) ≠ none := by decide

/-- Claim C10: the PROCESSING → COMPLETED update writes only status,
indexedAt, chunkCount and errorMessage, leaving retryCount (and every
other field) unchanged, so a document that succeeds after k failed
attempts ends COMPLETED with retryCount = k. -/
theorem complete_preserves_retry_count (max : Nat) (evs : List Ev) (d : DocRec)
    (n t : Nat) (hmax : 1 ≤ max) (h : runEvs max evs = some d) :
    (d.status = .completed → d.retry_count = countFails evs)
    ∧ (d.status = .processing →
        applyEv max d (.complete n t) = some { d with
          status := .completed
          indexed_date := some t
          chunk_count := n
          error_message := none }) := by
  obtain ⟨i1, _, _, _, _⟩ := runEvs_inv max hmax evs d h
  exact ⟨fun _ => i1, fun hs => by simp [applyEv, hs]⟩

/-- A concrete reachable ledger state: COMPLETED after one failure. -/
def docCompR : DocRec :=
  { status := .completed, retry_count := 1, error_message := none,
    chunk_count := 4, indexed_date := some 9 }

theorem complete_preserves_retry_count_w :
    runEvs 3 [Ev.claim, Ev.failAttempt ['e'], Ev.claim, Ev.complete 4 9] =
      some docCompR
    ∧ (docCompR.status = .completed →
        docCompR.retry_count =
          countFails [Ev.claim, Ev.failAttempt ['e'], Ev.claim, Ev.complete 4 9]) := by
  refine ⟨by decide, ?_⟩
  exact (complete_preserves_retry_count 3
    [Ev.claim, Ev.failAttempt ['e'], Ev.claim, Ev.complete 4 9]
    docCompR 4 9 (by omega) (by decide)).1

/-! ## Claim theorems: concurrency, vector store, search, config -/

/-- Claim C1: evaluation of the source's claim procedure at a
two-worker, two-document run.  process_pending_documents reads the
PENDING batch and later writes PROCESSING as two separate operations
with no conditional update, so in the interleaving where both workers
scan before either writes, both workers select, claim and process both
documents: document 0 (and document 1) is processed by worker A and by
worker B, contradicting at-most-one-worker-per-document. -/
theorem claim_race_double_processing :
    (runPool 2 [PoolAct.scanA, PoolAct.scanB, PoolAct.stepA, PoolAct.stepA,
        PoolAct.stepB, PoolAct.stepB]).procA = [0, 1]
    ∧ (runPool 2 [PoolAct.scanA, PoolAct.scanB, PoolAct.stepA, PoolAct.stepA,
        PoolAct.stepB, PoolAct.stepB]).procB = [0, 1]
    ∧ (0 : Nat) ∈ [0, 1] ∧ (0 : Nat) ∈ [0, 1] := by decide

/-- Claim C4: evaluation of the source's store update at a re-index.
_index_document calls collection.add with the new chunk ids only and
never deletes the document's prior entries, so when a document first
indexes into 2 chunks and is later re-indexed into 1 chunk, the stale
entry docId_chunk_1 survives: the document's entry count after the
re-run is 2, while a single run yields 1. -/
theorem stale_chunk_survives_reindex :
    docEntryCount (indexStoreStep (indexStoreStep [] 7 [['a'], ['b']]) 7 [['a']]) 7 = 2
    ∧ docEntryCount (indexStoreStep [] 7 [['a']]) 7 = 1
    ∧ (2 : Nat) ≠ 1 := by decide

/-- Claim C5, counterexample to the claim as stated: when embedding
the query fails, search does not propagate a typed EmbeddingError to
its caller; the catch-all except clause at indexer.py lines 549-551
turns the failure into a normal empty-list return. -/
theorem search_error_counterexample :
    searchRun (Except.error SearchErr.embeddingError) [⟨[1], ['a']⟩] 5 =
      Except.ok []
    ∧ (Except.ok [] : Except SearchErr (List (List Char × Int))) ≠
        Except.error SearchErr.embeddingError := by
  exact ⟨rfl, fun h => by cases h⟩

/-- Claim C5, amended: search returns an empty result list, not an
error, both when embedding the query fails (every exception is caught
and the empty list returned) and when the vector store is empty. -/
theorem search_returns_empty (e : SearchErr) (emb : Except SearchErr (List Int))
    (store : List SEntry) (n : Nat) :
    searchRun (Except.error e) store n = Except.ok []
    ∧ searchRun emb [] n = Except.ok [] := by
  refine ⟨rfl, ?_⟩
  cases emb with
  | error e2 => rfl
  | ok qv => simp [searchRun, chromaQuery, sortByDist]

/-- Claim C7: evaluation of the source at a degenerate configuration.
load_config performs no value validation, so a configuration with
overlap ≥ chunkSize is accepted rather than rejected; the fixed
strategy then reaches chunking, where overlap = chunkSize makes the
Python range step zero (a ValueError raised mid-chunking) and
overlap > chunkSize yields an empty range and hence zero chunks. -/
theorem degenerate_overlap_not_rejected :
    loadConfigAccepts ⟨10, 10, "fixed"⟩ = true
    ∧ loadConfigAccepts ⟨10, 12, "fixed"⟩ = true
    ∧ chunkText 10 10 "fixed" ['h', 'e', 'l', 'l', 'o'] =
        Except.error PyErr.rangeStepZero
    ∧ indexChunkStage 10 12 "fixed" ['h', 'e', 'l', 'l', 'o'] =
        Except.error ChunkFailure.noChunksCreated := by
  exact ⟨rfl, rfl, rfl, rfl⟩

/-! ## Fixed-strategy lemmas -/

theorem posRangeAux_mem (n step : Nat) :
    ∀ fuel start, ∀ i ∈ posRangeAux n step fuel start, start ≤ i ∧ i < n := by
  intro fuel
  induction fuel with
  | zero =>
    intro start i hi
    cases hi
  | succ f ih =>
    intro start i hi
    rw [posRangeAux] at hi
    by_cases hc : start < n ∧ 0 < step
    · rw [if_pos hc] at hi
      rcases List.mem_cons.mp hi with rfl | hi2
      · exact ⟨Nat.le_refl _, hc.1⟩
      · have := ih (start + step) i hi2
        omega
    · rw [if_neg hc] at hi
      cases hi

theorem posRange_mem (n step : Nat) :
    ∀ start, ∀ i ∈ posRange n step start, start ≤ i ∧ i < n :=
  fun start => posRangeAux_mem n step (n - start) start

theorem posRangeAux_cover (n step : Nat) (hstep : 0 < step) :
    ∀ fuel start j, n - start ≤ fuel → start ≤ j → j < n →
      ∃ i ∈ posRangeAux n step fuel start, i ≤ j ∧ j < i + step := by
  intro fuel
  induction fuel with
  | zero =>
    intro start j hf hsj hjn
    omega
  | succ f ih =>
    intro start j hf hsj hjn
    have hc : start < n ∧ 0 < step := ⟨by omega, hstep⟩
    rw [posRangeAux, if_pos hc]
    by_cases hj : j < start + step
    · exact ⟨start, List.mem_cons_self _ _, hsj, hj⟩
    · obtain ⟨i, hmem, h1, h2⟩ := ih (start + step) j (by omega) (by omega) hjn
      exact ⟨i, List.mem_cons_of_mem _ hmem, h1, h2⟩

theorem posRange_cover (n step : Nat) (hstep : 0 < step) :
    ∀ start j, start ≤ j → j < n →
      ∃ i ∈ posRange n step start, i ≤ j ∧ j < i + step :=
  fun start j h1 h2 =>
    posRangeAux_cover n step hstep (n - start) start j (Nat.le_refl _) h1 h2

theorem fixedFold (cs : Nat) (text : List Char) (idxs : List Nat)
    (acc : List (List Char)) :
    idxs.foldl (fun chunks i =>
      let ch := pstrip ((text.drop i).take cs)
      if ch = [] then chunks else chunks ++ [ch]) acc
    = acc ++ idxs.filterMap (fun i =>
        let ch := pstrip ((text.drop i).take cs)
        if ch = [] then none else some ch) := by
  induction idxs generalizing acc with
  | nil => simp
  | cons i rest ih =>
    rw [List.foldl_cons]
    show List.foldl _
      (if pstrip ((text.drop i).take cs) = [] then acc
        else acc ++ [pstrip ((text.drop i).take cs)]) rest = _
    by_cases h : pstrip ((text.drop i).take cs) = []
    · rw [if_pos h, ih]
      simp [List.filterMap_cons, h]
    · rw [if_neg h, ih]
      simp [List.filterMap_cons, h, List.append_assoc]

/-- For 0 < overlap < chunk_size the fixed strategy is the filterMap
of the stripped windows at the offsets of range(0, n, step). -/
theorem fixedChunks_eq_filterMap (cs ov : Nat) (text : List Char)
    (hov : ov < cs) :
    fixedChunks cs ov text = .ok ((posRange text.length (cs - ov) 0).filterMap
      (fun i => let ch := pstrip ((text.drop i).take cs)
                if ch = [] then none else some ch)) := by
  rw [fixedChunks]
  have h1 : ¬((cs : Int) - (ov : Int) = 0) := by omega
  have h2 : ¬((cs : Int) - (ov : Int) < 0) := by omega
  rw [if_neg h1]
  simp only [if_neg h2]
  have h3 : ((cs : Int) - (ov : Int)).toNat = cs - ov := by omega
  rw [h3, fixedFold]
  rfl

theorem exists_nonws_window (cs step : Nat) (text : List Char) (hstep : 0 < step)
    (hscs : step ≤ cs) (h : hasNonWS text = true) :
    ∃ i ∈ posRange text.length step 0, hasNonWS ((text.drop i).take cs) = true := by
  obtain ⟨c, hcmem, hcw⟩ := List.any_eq_true.mp h
  obtain ⟨⟨j, hj⟩, hget⟩ := List.get_of_mem hcmem
  obtain ⟨i, hmem, hij, hjlt⟩ :=
    posRange_cover text.length step hstep 0 j (Nat.zero_le j) hj
  refine ⟨i, hmem, List.any_eq_true.mpr ⟨c, ?_, hcw⟩⟩
  have hji : j - i < cs := by omega
  have hjd : j - i < (text.drop i).length := by rw [List.length_drop]; omega
  have hjt : j - i < ((text.drop i).take cs).length := by
    rw [List.length_take]
    omega
  have hval : ((text.drop i).take cs).get ⟨j - i, hjt⟩ = c := by
    have e1 : ((text.drop i).take cs).get ⟨j - i, hjt⟩ =
        (text.drop i).get ⟨j - i, hjd⟩ := by
      simp [List.getElem_take]
    have e2 : (text.drop i).get ⟨j - i, hjd⟩ = text.get ⟨j, hj⟩ := by
      have : i + (j - i) = j := by omega
      simp [List.getElem_drop, this]
    rw [e1, e2, hget]
  rw [← hval]
  exact List.get_mem _ _ _

theorem filterMap_eq_map_of (l : List Nat) (f : Nat → Option (List Char))
    (g : Nat → List Char) (h : ∀ i ∈ l, f i = some (g i)) :
    l.filterMap f = l.map g := by
  induction l with
  | nil => rfl
  | cons i rest ih =>
    rw [List.filterMap_cons, h i (by simp), List.map_cons,
      ih (fun j hj => h j (by simp [hj]))]

/-- Every chunk the fixed strategy emits is the non-empty strip of
some window. -/
theorem fixed_chunk_mem {cs ov : Nat} {text : List Char} {l : List (List Char)}
    (hov : ov < cs) (hok : fixedChunks cs ov text = .ok l) :
    ∀ ch ∈ l, ∃ i, ch = pstrip ((text.drop i).take cs) ∧ ch ≠ [] := by
  rw [fixedChunks_eq_filterMap cs ov text hov] at hok
  have hl := Except.ok.inj hok
  subst hl
  intro ch hch
  obtain ⟨i, _, hfi⟩ := List.mem_filterMap.mp hch
  by_cases h : pstrip ((text.drop i).take cs) = []
  · simp [h] at hfi
  · simp only [if_neg h] at hfi
    have := Option.some.inj hfi
    exact ⟨i, this.symm, by rw [← this]; exact h⟩

theorem fixedChunks_ne_nil {cs ov : Nat} {text : List Char}
    (hov : ov < cs) (h : hasNonWS text = true) :
    ∃ l, fixedChunks cs ov text = .ok l ∧ l ≠ [] := by
  rw [fixedChunks_eq_filterMap cs ov text hov]
  refine ⟨_, rfl, ?_⟩
  intro hnil
  obtain ⟨i, hmem, hwin⟩ :=
    exists_nonws_window cs (cs - ov) text (by omega) (by omega) h
  have h2 := List.filterMap_eq_nil_iff.mp hnil i hmem
  have hne : pstrip ((text.drop i).take cs) ≠ [] := by
    rw [Ne, pstrip_eq_nil_iff]
    simp [hwin]
  simp [hne] at h2

/-- Claim C3, amended: under the fixed strategy with
0 < overlap < chunkSize, every chunk has length ≤ chunkSize; on
whitespace-free text the chunk list is exactly the list of windows at
offsets 0, step, 2·step, ... (step = chunkSize − overlap), and the
trailing overlap characters of any window that ends within the text
equal the leading overlap characters of the next window; the scenario
chunkSize=100, overlap=20 on a 250-character whitespace-free text
yields 4 chunks of lengths [100, 100, 90, 10] — not 3 chunks of
lengths [100, 100, 70]. -/
theorem fixed_overlap_windows (cs ov i : Nat) (text : List Char)
    (l : List (List Char)) (hov0 : 0 < ov) (hov : ov < cs)
    (hok : fixedChunks cs ov text = .ok l)
    (hws : ∀ c ∈ text, isWS c = false)
    (hi : i + cs ≤ text.length) :
    (∀ ch ∈ l, ch.length ≤ cs)
    ∧ l = (posRange text.length (cs - ov) 0).map (fun j => (text.drop j).take cs)
    ∧ takeLast ov ((text.drop i).take cs) =
        ((text.drop (i + (cs - ov))).take cs).take ov
    ∧ (fixedChunks 100 20 (List.replicate 250 'a')).map
        (fun ll => ll.map List.length) = Except.ok [100, 100, 90, 10] := by
  refine ⟨?_, ?_, ?_, rfl⟩
  · intro ch hch
    obtain ⟨j, hj, _⟩ := fixed_chunk_mem hov hok ch hch
    rw [hj]
    calc (pstrip ((text.drop j).take cs)).length
        ≤ ((text.drop j).take cs).length := pstrip_length_le _
      _ ≤ cs := by rw [List.length_take]; omega
  · rw [fixedChunks_eq_filterMap cs ov text hov] at hok
    have hl := Except.ok.inj hok
    subst hl
    apply filterMap_eq_map_of
    intro j hj
    have hjn := (posRange_mem text.length (cs - ov) 0 j hj).2
    have hwne : (text.drop j).take cs ≠ [] := by
      intro h0
      have := congrArg List.length h0
      rw [List.length_take, List.length_drop] at this
      simp at this
      omega
    have hwall : ∀ c ∈ (text.drop j).take cs, isWS c = false := fun c hc =>
      hws c (List.drop_subset _ _ (List.take_subset _ _ hc))
    have hwnws : hasNonWS ((text.drop j).take cs) = true := by
      obtain ⟨c, hc⟩ := List.exists_mem_of_ne_nil _ hwne
      exact List.any_eq_true.mpr ⟨c, hc, by simp [hwall c hc]⟩
    have hps : pstrip ((text.drop j).take cs) = (text.drop j).take cs :=
      pstrip_of_noWS hwnws hwall
    have hne : pstrip ((text.drop j).take cs) ≠ [] := by
      rw [Ne, pstrip_eq_nil_iff]
      simp [hwnws]
    simp only [if_neg hne]
    rw [hps]
  · have hlen : ((text.drop i).take cs).length = cs := by
      rw [List.length_take, List.length_drop]
      omega
    rw [takeLast, hlen, List.drop_take, List.drop_drop, List.take_take]
    congr 1
    omega

theorem fixed_overlap_windows_w :
    fixedChunks 3 1 (List.replicate 7 'a') =
      Except.ok [List.replicate 3 'a', List.replicate 3 'a',
        List.replicate 3 'a', ['a']]
    ∧ ((∀ ch ∈ [List.replicate 3 'a', List.replicate 3 'a',
          List.replicate 3 'a', ['a']], ch.length ≤ 3)
      ∧ [List.replicate 3 'a', List.replicate 3 'a',
          List.replicate 3 'a', ['a']] =
          (posRange (List.replicate 7 'a').length (3 - 1) 0).map
            (fun j => ((List.replicate 7 'a').drop j).take 3)
      ∧ takeLast 1 (((List.replicate 7 'a').drop 2).take 3) =
          (((List.replicate 7 'a').drop (2 + (3 - 1))).take 3).take 1
      ∧ (fixedChunks 100 20 (List.replicate 250 'a')).map
          (fun ll => ll.map List.length) = Except.ok [100, 100, 90, 10]) := by
  refine ⟨rfl, ?_⟩
  exact fixed_overlap_windows 3 1 2 (List.replicate 7 'a')
    [List.replicate 3 'a', List.replicate 3 'a', List.replicate 3 'a', ['a']]
    (by omega) (by omega) rfl (by decide) (by decide)

/-- Claim C3, counterexample to the claim as stated: the source's
fixed strategy on a 250-character text with chunkSize=100, overlap=20
advances by 80 and so produces 4 chunks of lengths [100, 100, 90, 10],
not 3 chunks of lengths [100, 100, 70]; moreover the per-window strip
of indexer.py line 459 breaks exact overlap sharing as soon as the
text contains whitespace. -/
theorem fixed_scenario_counterexample :
    (fixedChunks 100 20 (List.replicate 250 'a')).map
      (fun ll => ll.map List.length) = Except.ok [100, 100, 90, 10]
    ∧ ([100, 100, 90, 10] : List Nat) ≠ [100, 100, 70]
    ∧ fixedChunks 3 1 ['a', 'b', ' ', 'c', 'd'] =
        Except.ok [['a', 'b'], ['c', 'd'], ['d']]
    ∧ takeLast 1 ['a', 'b'] ≠ List.take 1 ['c', 'd'] := by
  exact ⟨rfl, by decide, rfl, by decide⟩

/-! ## Semantic-strategy lemmas -/

theorem isPunct_not_isWS {c : Char} (h : isPunct c = true) : isWS c = false := by
  rw [isPunct, Bool.or_eq_true, Bool.or_eq_true] at h
  rcases h with (h | h) | h <;>
    · rw [decide_eq_true_eq] at h
      subst h
      rfl

theorem getLastD_reverse (xs : List Char) (d : Char) :
    xs.reverse.getLastD d = xs.headD d := by
  cases xs with
  | nil => rfl
  | cons c t =>
    rw [List.reverse_cons, List.getLastD_eq_getLast?, List.getLast?_concat]
    rfl

theorem sentAux_ne_nil (fuel : Nat) :
    ∀ l acc p, sentAux fuel l acc p ≠ [] := by
  induction fuel with
  | zero =>
    intro l acc p
    cases l <;> simp [sentAux]
  | succ f ih =>
    intro l acc p
    cases l with
    | nil => simp [sentAux]
    | cons c rest =>
      rw [sentAux]
      by_cases h : (p && isWS c) = true
      · rw [if_pos h]
        simp
      · rw [if_neg h]
        exact ih rest (c :: acc) (isPunct c)

theorem endsNonWS_nil_false : endsNonWS ([] : List Char) = false := by
  rw [endsNonWS]
  rfl

theorem endsNonWS_cons_tail {c : Char} {rest : List Char} (hne : rest ≠ [])
    (h : endsNonWS (c :: rest) = true) : endsNonWS rest = true := by
  rw [endsNonWS, List.getLastD_cons] at h
  rw [endsNonWS, getLastD_irrel rest ' ' c hne]
  exact h

theorem endsNonWS_dropWhile {rest : List Char}
    (h : endsNonWS rest = true) : endsNonWS (rest.dropWhile isWS) = true := by
  have hdne : rest.dropWhile isWS ≠ [] := by
    intro h0
    have hall := List.dropWhile_eq_nil_iff.mp h0
    obtain ⟨c, hcm, hcw⟩ := List.any_eq_true.mp (endsNonWS_hasNonWS h)
    rw [hall c hcm] at hcw
    cases hcw
  obtain ⟨t, ht⟩ := dropWhile_isSuffix isWS rest
  rw [endsNonWS]
  have e := getLastD_append_right t (rest.dropWhile isWS) ' ' hdne
  rw [← ht] at e
  rw [← e]
  exact h

/-- Every piece produced by the sentence-boundary split of a text that
ends in a non-whitespace character itself ends in a non-whitespace
character (non-final pieces end at the punctuation that triggered the
split; the final piece ends at the text's last character). -/
theorem sentAux_pieces (fuel : Nat) :
    ∀ l acc p, l.length ≤ fuel → endsNonWS l = true →
      (p = true → isPunct (acc.headD ' ') = true) →
      ∀ piece ∈ sentAux fuel l acc p, endsNonWS piece = true := by
  induction fuel with
  | zero =>
    intro l acc p hlen hends _ piece _
    have h0 : l = [] := List.length_eq_zero.mp (Nat.le_zero.mp hlen)
    rw [h0, endsNonWS_nil_false] at hends
    cases hends
  | succ f ih =>
    intro l acc p hlen hends hacc piece hp
    cases l with
    | nil =>
      rw [endsNonWS_nil_false] at hends
      cases hends
    | cons c rest =>
      rw [sentAux] at hp
      by_cases hcond : (p && isWS c) = true
      · rw [if_pos hcond] at hp
        obtain ⟨hpt, hwc⟩ : p = true ∧ isWS c = true := by simpa using hcond
        rcases List.mem_cons.mp hp with rfl | hp2
        · rw [endsNonWS, getLastD_reverse, isPunct_not_isWS (hacc hpt)]
          rfl
        · have hrne : rest ≠ [] := by
            rintro rfl
            rw [endsNonWS, List.getLastD_cons] at hends
            simp only [List.getLastD_nil] at hends
            rw [hwc] at hends
            cases hends
          have hends2 : endsNonWS rest = true := endsNonWS_cons_tail hrne hends
          have hlen2 : (rest.dropWhile isWS).length ≤ f :=
            Nat.le_trans (length_dropWhile_le _ _) (by simpa using hlen)
          exact ih _ [] false hlen2 (endsNonWS_dropWhile hends2)
            (fun h0 => by cases h0) piece hp2
      · rw [if_neg hcond] at hp
        cases hr : rest with
        | nil =>
          rw [hr] at hp
          have hpe : piece = (c :: acc).reverse := by
            cases f <;> simpa [sentAux] using hp
          have hc : isWS c = false := by
            rw [hr, endsNonWS, List.getLastD_cons] at hends
            simpa using hends
          rw [hpe, List.reverse_cons]
          exact endsNonWS_concat _ _ hc
        | cons c2 rest2 =>
          have hrne : rest ≠ [] := by rw [hr]; simp
          have hends2 : endsNonWS rest = true := endsNonWS_cons_tail hrne hends
          exact ih rest (c :: acc) (isPunct c) (by simpa using hlen) hends2
            (fun hpc => by simpa using hpc) piece hp

theorem flushSt_fst (ov : Nat) (st : ChunkState) :
    ∃ t, (flushSt ov st).1 = st.1 ++ t := by
  rw [flushSt]
  by_cases h : st.2 ≠ []
  · rw [if_pos h]
    exact ⟨[pstrip st.2], rfl⟩
  · rw [if_neg h]
    exact ⟨[], by simp⟩

theorem procSentence_fst (cs ov : Nat) (st : ChunkState) (s : List Char) :
    ∃ t, (procSentence cs ov st s).1 = st.1 ++ t := by
  rw [procSentence]
  by_cases h : cs < st.2.length + s.length
  · simp only [if_pos h]
    exact flushSt_fst ov st
  · simp only [if_neg h]
    exact ⟨[], by simp⟩

theorem foldl_procSentence_fst (cs ov : Nat) (ss : List (List Char)) :
    ∀ st, ∃ t, (ss.foldl (procSentence cs ov) st).1 = st.1 ++ t := by
  induction ss with
  | nil => exact fun st => ⟨[], by simp⟩
  | cons s rest ih =>
    intro st
    obtain ⟨t1, h1⟩ := procSentence_fst cs ov st s
    obtain ⟨t2, h2⟩ := ih (procSentence cs ov st s)
    exact ⟨t1 ++ t2, by rw [List.foldl_cons, h2, h1, List.append_assoc]⟩

/-- The invariant used to show the semantic strategy emits at least
one chunk from non-blank text: some chunk has been flushed already, or
the running buffer contains a non-whitespace character. -/
def SemInv (st : ChunkState) : Prop := st.1 ≠ [] ∨ hasNonWS st.2 = true

theorem hasNonWS_ne_nil {xs : List Char} (h : hasNonWS xs = true) : xs ≠ [] := by
  rintro rfl
  cases h

theorem semInv_procSentence (cs ov : Nat) (st : ChunkState) (s : List Char)
    (h : SemInv st) : SemInv (procSentence cs ov st s) := by
  rcases h with h1 | h2
  · left
    obtain ⟨t, ht⟩ := procSentence_fst cs ov st s
    rw [ht]
    simp [h1]
  · rw [procSentence]
    by_cases hc : cs < st.2.length + s.length
    · simp only [if_pos hc]
      rw [flushSt, if_pos (hasNonWS_ne_nil h2)]
      left
      simp
    · simp only [if_neg hc]
      right
      rw [hasNonWS_append, h2]
      rfl

theorem procSentence_snd_hasNonWS (cs ov : Nat) (st : ChunkState)
    (s : List Char) (hs : endsNonWS s = true) :
    hasNonWS (procSentence cs ov st s).2 = true :=
  endsNonWS_hasNonWS (endsNonWS_append _ _ (endsNonWS_cons ' ' s hs))

theorem semInv_foldl_sent_last (cs ov : Nat) (st : ChunkState)
    (ss : List (List Char)) (hne : ss ≠ [])
    (hlast : endsNonWS (ss.getLast hne) = true) :
    SemInv (ss.foldl (procSentence cs ov) st) := by
  have hsplit := List.dropLast_append_getLast hne
  rw [← hsplit, List.foldl_append, List.foldl_cons, List.foldl_nil]
  right
  exact procSentence_snd_hasNonWS cs ov _ _ hlast

theorem procPara_fst (cs ov : Nat) (st : ChunkState) (p : List Char) :
    ∃ t, (procPara cs ov st p).1 = st.1 ++ t := by
  rw [procPara]
  by_cases hps : pstrip p = []
  · rw [if_pos hps]
    exact ⟨[], by simp⟩
  · rw [if_neg hps]
    by_cases hc : cs < st.2.length + (pstrip p).length
    · rw [if_pos hc]
      obtain ⟨t1, h1⟩ := flushSt_fst ov st
      by_cases hlong : cs < (pstrip p).length
      · rw [if_pos hlong]
        obtain ⟨t2, h2⟩ := foldl_procSentence_fst cs ov (sentSplit (pstrip p))
          (flushSt ov st)
        exact ⟨t1 ++ t2, by rw [h2, h1, List.append_assoc]⟩
      · rw [if_neg hlong]
        exact ⟨t1, h1⟩
    · rw [if_neg hc]
      by_cases hne : st.2 ≠ []
      · rw [if_pos hne]
        exact ⟨[], by simp⟩
      · rw [if_neg hne]
        exact ⟨[], by simp⟩

theorem semInv_procPara (cs ov : Nat) (st : ChunkState) (p : List Char)
    (h : SemInv st) : SemInv (procPara cs ov st p) := by
  rcases h with h1 | h2
  · left
    obtain ⟨t, ht⟩ := procPara_fst cs ov st p
    rw [ht]
    simp [h1]
  · rw [procPara]
    by_cases hps : pstrip p = []
    · rw [if_pos hps]
      right
      exact h2
    · rw [if_neg hps]
      have hne : st.2 ≠ [] := hasNonWS_ne_nil h2
      by_cases hc : cs < st.2.length + (pstrip p).length
      · rw [if_pos hc]
        have hflush : (flushSt ov st).1 ≠ [] := by
          rw [flushSt, if_pos hne]
          simp
        by_cases hlong : cs < (pstrip p).length
        · rw [if_pos hlong]
          left
          obtain ⟨t, ht⟩ :=
            foldl_procSentence_fst cs ov (sentSplit (pstrip p)) (flushSt ov st)
          rw [ht]
          simp [hflush]
        · rw [if_neg hlong]
          left
          exact hflush
      · rw [if_neg hc]
        rw [if_pos hne]
        right
        rw [hasNonWS_append, h2]
        rfl

theorem semInv_procPara_est (cs ov : Nat) (st : ChunkState) (p : List Char)
    (hp : hasNonWS p = true) : SemInv (procPara cs ov st p) := by
  have hpsne : pstrip p ≠ [] := by
    rw [Ne, pstrip_eq_nil_iff, hp]
    simp
  have hpse : endsNonWS (pstrip p) = true := endsNonWS_pstrip_nonempty hpsne
  rw [procPara, if_neg hpsne]
  by_cases hc : cs < st.2.length + (pstrip p).length
  · rw [if_pos hc]
    by_cases hlong : cs < (pstrip p).length
    · rw [if_pos hlong]
      apply semInv_foldl_sent_last cs ov _ _ (sentAux_ne_nil _ _ _ _)
      exact sentAux_pieces (pstrip p).length (pstrip p) [] false (Nat.le_refl _)
        hpse (fun h0 => by cases h0) _ (List.getLast_mem _)
    · rw [if_neg hlong]
      right
      exact endsNonWS_hasNonWS (endsNonWS_append _ _ (endsNonWS_cons ' ' _ hpse))
  · rw [if_neg hc]
    by_cases hne : st.2 ≠ []
    · rw [if_pos hne]
      right
      exact endsNonWS_hasNonWS (endsNonWS_append _ _
        (endsNonWS_cons '\n' _ (endsNonWS_cons '\n' _ hpse)))
    · rw [if_neg hne]
      right
      rw [hasNonWS_pstrip]
      exact hp

theorem semInv_foldl (cs ov : Nat) (paras : List (List Char)) :
    ∀ st, (SemInv st ∨ ∃ p ∈ paras, hasNonWS p = true) →
      SemInv (paras.foldl (procPara cs ov) st) := by
  induction paras with
  | nil =>
    intro st h
    rcases h with h1 | ⟨p, hp, _⟩
    · exact h1
    · cases hp
  | cons p rest ih =>
    intro st h
    rw [List.foldl_cons]
    by_cases hp : hasNonWS p = true
    · exact ih _ (Or.inl (semInv_procPara_est cs ov st p hp))
    · rcases h with h1 | ⟨q, hq, hqw⟩
      · exact ih _ (Or.inl (semInv_procPara _ _ _ _ h1))
      · rcases List.mem_cons.mp hq with rfl | hq2
        · exact absurd hqw hp
        · exact ih _ (Or.inr ⟨q, hq2, hqw⟩)

theorem splitNNAux_exists :
    ∀ acc text : List Char, (hasNonWS acc || hasNonWS text) = true →
      ∃ p ∈ splitNNAux acc text, hasNonWS p = true := by
  apply splitNNAux.induct
    (motive := fun acc text => (hasNonWS acc || hasNonWS text) = true →
      ∃ p ∈ splitNNAux acc text, hasNonWS p = true)
  · intro acc h
    refine ⟨acc.reverse, by simp [splitNNAux], ?_⟩
    rw [hasNonWS_reverse]
    simpa [hasNonWS] using h
  · intro acc c h
    refine ⟨(c :: acc).reverse, by simp [splitNNAux], ?_⟩
    rw [hasNonWS_reverse]
    simp only [hasNonWS, List.any_cons] at h ⊢
    rcases Bool.or_eq_true_iff.mp h with h1 | h2
    · simp [h1]
    · simpa using Or.inl (by simpa using h2)
  · intro acc c1 c2 rest hnn ih h
    obtain ⟨rfl, rfl⟩ := hnn
    rw [splitNNAux, if_pos ⟨rfl, rfl⟩]
    have hws : isWS '\n' = true := rfl
    simp only [hasNonWS, List.any_cons, hws] at h
    simp only [Bool.not_true, Bool.false_or] at h
    rcases Bool.or_eq_true_iff.mp h with h1 | h2
    · exact ⟨acc.reverse, by simp, by rw [hasNonWS_reverse]; exact h1⟩
    · obtain ⟨p, hp1, hp2⟩ := ih (by simpa [hasNonWS] using h2)
      exact ⟨p, by simp [hp1], hp2⟩
  · intro acc c1 c2 rest hnn ih h
    rw [splitNNAux, if_neg hnn]
    apply ih
    simp only [hasNonWS, List.any_cons] at h ⊢
    rcases Bool.or_eq_true_iff.mp h with h1 | h2
    · simp [h1]
    · rcases Bool.or_eq_true_iff.mp h2 with h3 | h4
      · simp [h3]
      · simp [h4]

/-- The semantic strategy emits at least one chunk from any text
containing a non-whitespace character. -/
theorem semanticChunks_ne_nil (cs ov : Nat) (text : List Char)
    (h : hasNonWS text = true) : semanticChunks cs ov text ≠ [] := by
  rw [semanticChunks]
  have hinv : SemInv ((splitNN text).foldl (procPara cs ov) ([], [])) := by
    apply semInv_foldl
    right
    exact splitNNAux_exists [] text (by simpa [hasNonWS] using h)
  set st := (splitNN text).foldl (procPara cs ov) ([], []) with hst
  rcases hinv with h1 | h2
  · by_cases hc : pstrip st.2 ≠ []
    · rw [if_pos hc]
      simp [h1]
    · rw [if_neg hc]
      exact h1
  · have hc : pstrip st.2 ≠ [] := by
      rw [Ne, pstrip_eq_nil_iff, h2]
      simp
    rw [if_pos hc]
    simp

/-- The invariant used to show every semantic chunk is non-empty: all
flushed chunks are non-empty, and the running buffer is either empty
or ends in a non-whitespace character. -/
def NEInv (st : ChunkState) : Prop :=
  (∀ ch ∈ st.1, ch ≠ []) ∧ (st.2 = [] ∨ endsNonWS st.2 = true)

theorem neInv_flushSt (ov : Nat) (st : ChunkState) (h : NEInv st) :
    NEInv (flushSt ov st) := by
  rw [flushSt]
  by_cases hne : st.2 ≠ []
  · rw [if_pos hne]
    have hends : endsNonWS st.2 = true := (h.2).resolve_left hne
    constructor
    · intro ch hch
      rcases List.mem_append.mp hch with h1 | h2
      · exact h.1 ch h1
      · have : ch = pstrip st.2 := by simpa using h2
        rw [this, Ne, pstrip_eq_nil_iff, endsNonWS_hasNonWS hends]
        simp
    · by_cases hov : 0 < ov
      · rw [if_pos hov]
        right
        exact endsNonWS_takeLast hends hov
      · rw [if_neg hov]
        left
        rfl
  · rw [if_neg hne]
    exact h

theorem neInv_procSentence (cs ov : Nat) (st : ChunkState) (s : List Char)
    (hs : endsNonWS s = true) (h : NEInv st) :
    NEInv (procSentence cs ov st s) := by
  rw [procSentence]
  by_cases hc : cs < st.2.length + s.length
  · simp only [if_pos hc]
    exact ⟨(neInv_flushSt ov st h).1,
      Or.inr (endsNonWS_append _ _ (endsNonWS_cons ' ' s hs))⟩
  · simp only [if_neg hc]
    exact ⟨h.1, Or.inr (endsNonWS_append _ _ (endsNonWS_cons ' ' s hs))⟩

theorem neInv_foldl_procSentence (cs ov : Nat) (ss : List (List Char))
    (hss : ∀ s ∈ ss, endsNonWS s = true) :
    ∀ st, NEInv st → NEInv (ss.foldl (procSentence cs ov) st) := by
  induction ss with
  | nil => exact fun st h => h
  | cons s rest ih =>
    intro st h
    rw [List.foldl_cons]
    exact ih (fun q hq => hss q (by simp [hq])) _
      (neInv_procSentence cs ov st s (hss s (by simp)) h)

theorem neInv_procPara (cs ov : Nat) (st : ChunkState) (p : List Char)
    (h : NEInv st) : NEInv (procPara cs ov st p) := by
  rw [procPara]
  by_cases hps : pstrip p = []
  · rw [if_pos hps]
    exact h
  · rw [if_neg hps]
    have hpe : endsNonWS (pstrip p) = true := endsNonWS_pstrip_nonempty hps
    by_cases hc : cs < st.2.length + (pstrip p).length
    · rw [if_pos hc]
      have hf : NEInv (flushSt ov st) := neInv_flushSt ov st h
      by_cases hlong : cs < (pstrip p).length
      · rw [if_pos hlong]
        apply neInv_foldl_procSentence
        · intro s hsm
          exact sentAux_pieces (pstrip p).length (pstrip p) [] false
            (Nat.le_refl _) hpe (fun h0 => by cases h0) s hsm
        · exact hf
      · rw [if_neg hlong]
        exact ⟨hf.1, Or.inr (endsNonWS_append _ _ (endsNonWS_cons ' ' _ hpe))⟩
    · rw [if_neg hc]
      by_cases hne : st.2 ≠ []
      · rw [if_pos hne]
        exact ⟨h.1, Or.inr (endsNonWS_append _ _
          (endsNonWS_cons '\n' _ (endsNonWS_cons '\n' _ hpe)))⟩
      · rw [if_neg hne]
        exact ⟨h.1, Or.inr hpe⟩

theorem neInv_foldl_procPara (cs ov : Nat) (paras : List (List Char)) :
    ∀ st, NEInv st → NEInv (paras.foldl (procPara cs ov) st) := by
  induction paras with
  | nil => exact fun st h => h
  | cons p rest ih =>
    intro st h
    rw [List.foldl_cons]
    exact ih _ (neInv_procPara cs ov st p h)

/-- Every chunk the semantic strategy emits is non-empty. -/
theorem semanticChunks_nonempty (cs ov : Nat) (text : List Char) :
    ∀ ch ∈ semanticChunks cs ov text, ch ≠ [] := by
  rw [semanticChunks]
  have hinv : NEInv ((splitNN text).foldl (procPara cs ov) ([], [])) :=
    neInv_foldl_procPara cs ov (splitNN text) ([], [])
      ⟨(fun ch hch => by cases hch), Or.inl rfl⟩
  set st := (splitNN text).foldl (procPara cs ov) ([], []) with hst
  intro ch hch
  by_cases hc : pstrip st.2 ≠ []
  · rw [if_pos hc] at hch
    rcases List.mem_append.mp hch with h1 | h2
    · exact hinv.1 ch h1
    · have : ch = pstrip st.2 := by simpa using h2
      rw [this]
      exact hc
  · rw [if_neg hc] at hch
    exact hinv.1 ch hch

/-! ## Claim theorems: chunking totality and bounds -/

/-- Claim C6: for every text and every valid configuration
(0 < chunkSize, overlap < chunkSize, strategy semantic or fixed) the
chunking stage of _index_document is total: it fails exactly when the
text is blank (contains no non-whitespace character), and on non-blank
text it produces at least one chunk. -/
theorem chunking_total_iff_blank (cs ov : Nat) (strategy : String)
    (text : List Char) (_hcs : 0 < cs) (hov : ov < cs)
    (hstrat : strategy = "semantic" ∨ strategy = "fixed") :
    ((∃ e, indexChunkStage cs ov strategy text = .error e) ↔
      hasNonWS text = false)
    ∧ (hasNonWS text = true →
        ∃ l, indexChunkStage cs ov strategy text = .ok l ∧ l ≠ []) := by
  have key : hasNonWS text = true →
      ∃ l, indexChunkStage cs ov strategy text = .ok l ∧ l ≠ [] := by
    intro h
    have hblank : ¬(text = [] ∨ pstrip text = []) := by
      rintro (rfl | hps)
      · cases h
      · rw [pstrip_eq_nil_iff, h] at hps
        cases hps
    rw [indexChunkStage, if_neg hblank]
    rcases hstrat with hs | hs
    · subst hs
      rw [chunkText, if_pos rfl]
      have hne := semanticChunks_ne_nil cs ov text h
      exact ⟨semanticChunks cs ov text, by simp [hne], hne⟩
    · subst hs
      rw [chunkText, if_neg (by decide)]
      obtain ⟨l, hok, hlne⟩ := fixedChunks_ne_nil hov h
      rw [hok]
      exact ⟨l, by simp [hlne], hlne⟩
  refine ⟨⟨?_, ?_⟩, key⟩
  · rintro ⟨e, he⟩
    by_contra hb
    have ht : hasNonWS text = true := by
      cases hx : hasNonWS text
      · exact absurd hx hb
      · rfl
    obtain ⟨l, hok, _⟩ := key ht
    rw [hok] at he
    cases he
  · intro hb
    refine ⟨.noTextExtracted, ?_⟩
    rw [indexChunkStage, if_pos]
    right
    rw [pstrip_eq_nil_iff]
    exact hb

theorem chunking_total_iff_blank_w :
    ((∃ e, indexChunkStage 5 2 "fixed" ['a', 'b', ' ', 'c', 'd'] = .error e) ↔
      hasNonWS ['a', 'b', ' ', 'c', 'd'] = false)
    ∧ (hasNonWS ['a', 'b', ' ', 'c', 'd'] = true →
        ∃ l, indexChunkStage 5 2 "fixed" ['a', 'b', ' ', 'c', 'd'] = .ok l
          ∧ l ≠ []) :=
  chunking_total_iff_blank 5 2 "fixed" ['a', 'b', ' ', 'c', 'd']
    (by omega) (by omega) (Or.inr rfl)

/-- Claim C8, amended: every chunk produced by chunking, under either
strategy, is a non-empty string; under the fixed strategy every chunk
moreover has length ≤ chunkSize (hence ≤ chunkSize + overlap), but the
semantic strategy can emit a chunk longer than chunkSize + overlap
when a single sentence exceeds chunkSize. -/
theorem chunk_nonempty_bounded (cs ov : Nat) (strategy : String)
    (text : List Char) (l : List (List Char)) (hov : ov < cs)
    (hok : chunkText cs ov strategy text = .ok l) :
    ∀ ch ∈ l, ch ≠ [] ∧ (strategy ≠ "semantic" → ch.length ≤ cs) := by
  rw [chunkText] at hok
  by_cases hs : strategy = "semantic"
  · rw [if_pos hs] at hok
    have hl := Except.ok.inj hok
    subst hl
    intro ch hch
    exact ⟨semanticChunks_nonempty cs ov text ch hch,
      fun hns => absurd hs hns⟩
  · rw [if_neg hs] at hok
    intro ch hch
    obtain ⟨i, hieq, hne⟩ := fixed_chunk_mem hov hok ch hch
    refine ⟨hne, fun _ => ?_⟩
    rw [hieq]
    calc (pstrip ((text.drop i).take cs)).length
        ≤ ((text.drop i).take cs).length := pstrip_length_le _
      _ ≤ cs := by rw [List.length_take]; omega

theorem chunk_nonempty_bounded_w :
    chunkText 3 1 "fixed" ['a', 'b', ' ', 'c', 'd'] =
      Except.ok [['a', 'b'], ['c', 'd'], ['d']]
    ∧ (∀ ch ∈ [['a', 'b'], ['c', 'd'], ['d']],
        ch ≠ [] ∧ ("fixed" ≠ "semantic" → ch.length ≤ 3)) := by
  refine ⟨rfl, ?_⟩
  exact chunk_nonempty_bounded 3 1 "fixed" ['a', 'b', ' ', 'c', 'd']
    [['a', 'b'], ['c', 'd'], ['d']] (by omega) rfl

/-- Claim C8, counterexample to the claim as stated: with
chunkSize = 5, overlap = 2 and a ten-character paragraph with no
sentence punctuation, the semantic strategy emits one chunk of length
10 > chunkSize + overlap = 7. -/
theorem semantic_bound_counterexample :
    chunkText 5 2 "semantic" (List.replicate 10 'a') =
      Except.ok [List.replicate 10 'a']
    ∧ (List.replicate 10 'a').length = 10
    ∧ ¬(10 ≤ 5 + 2) := by
  exact ⟨rfl, by decide, by decide⟩

end Cygnus
